import Mathlib

/-!
# Verification of the Eve-Quantum-Clone-Computer simulator core

Shallow embedding of `src/EveQuantumComputer.js`: a dual-state quantum
simulator that tracks a hidden true state vector together with an observer's
inferred density matrix.  JavaScript floating-point numbers are modelled as
real numbers (exact arithmetic); the interleaved real/imaginary raw buffers
of the Quirk `Matrix` class are modelled as complex-entry functions.

The Quirk `Matrix` class itself (`src/math/Matrix.js`) and `Util` are not
part of this repository's sources; their operations are modelled from the
specification (section 4.1) and are marked `Modelled from the spec:` below.
-/

namespace EveSim

noncomputable section

open Finset

/-- A Quirk matrix: a `width × height` dense complex matrix.  The JS class
stores the entries in an interleaved real/imaginary `Float64Array`; here the
entries are a function from (row, column); entries outside the dimensions
are irrelevant junk. -/
structure JsMat where
  width : ℕ
  height : ℕ
  entry : ℕ → ℕ → ℂ

/-- Modelled from the spec: `Matrix.times` (matrix product), which requires
`A.width = B.height`; the inner summation ranges over `A.width`. -/
def times (A B : JsMat) : JsMat :=
  ⟨B.width, A.height, fun r c => ∑ k ∈ Finset.range A.width, A.entry r k * B.entry k c⟩

/-- Modelled from the spec: `Matrix.times` with a scalar (uniform scaling). -/
def scalarTimes (A : JsMat) (z : ℂ) : JsMat :=
  ⟨A.width, A.height, fun r c => A.entry r c * z⟩

/-- Modelled from the spec: `Matrix.adjoint` (conjugate transpose). -/
def adjoint (A : JsMat) : JsMat :=
  ⟨A.height, A.width, fun r c => starRingEnd ℂ (A.entry c r)⟩

/-- Modelled from the spec: `Matrix.trace` (sum of diagonal entries of a
square matrix). -/
def trace (A : JsMat) : ℂ :=
  ∑ i ∈ Finset.range A.height, A.entry i i

/-- Modelled from the spec: `Matrix.identity(n)`. -/
def identity (n : ℕ) : JsMat :=
  ⟨n, n, fun r c => if r = c then 1 else 0⟩

/-- Modelled from the spec: `Matrix.tensorProduct` (Kronecker product), with
the left operand as the more significant factor; this is the convention under
which the qubit at loop position `i` of `expandOp` corresponds to bit `i` of
a basis-state index, matching the bit masks used by the measurement code. -/
def tensorProduct (A B : JsMat) : JsMat :=
  ⟨A.width * B.width, A.height * B.height,
    fun r c => A.entry (r / B.height) (c / B.width) * B.entry (r % B.height) (c % B.width)⟩

/-- Modelled from the spec: `Matrix.isUnitary(tolerance)` — the matrix is
square and `A·adjoint(A)` is within `tolerance` (entrywise) of the identity. -/
def isUnitary (A : JsMat) (tol : ℝ) : Prop :=
  A.width = A.height ∧
    ∀ r < A.height, ∀ c < A.height,
      Complex.abs ((times A (adjoint A)).entry r c - (identity A.height).entry r c) ≤ tol

/-- Source `absCol`: `m => Math.sqrt(m.adjoint().times(m).trace().abs())`. -/
def absCol (m : JsMat) : ℝ :=
  Real.sqrt (Complex.abs (trace (times (adjoint m) m)))

/-- Source `normalizeCol`: `m => m.times(1 / absCol(m))`. -/
def normalizeCol (m : JsMat) : JsMat :=
  scalarTimes m (((absCol m)⁻¹ : ℝ) : ℂ)

/-- Source `normalizeDensity`: `m => m.times(1 / m.trace().abs())`. -/
def normalizeDensity (m : JsMat) : JsMat :=
  scalarTimes m (((Complex.abs (trace m))⁻¹ : ℝ) : ℂ)

/-- Source `controlify(matrix, controlMask)`: every entry whose row or column does
not have all the mask bits set is overwritten with the identity value. -/
def controlify (matrix : JsMat) (controlMask : ℕ) : JsMat :=
  ⟨matrix.width, matrix.height,
    fun r c =>
      if controlMask &&& r ≠ controlMask ∨ controlMask &&& c ≠ controlMask then
        (if r = c then 1 else 0)
      else matrix.entry r c⟩

/-- The control mask `seq(controls).aggregate(0, (a, e) => a | (1 << e))`.
JavaScript `<<` is a 32-bit shift that takes its shift count modulo 32
(`1 << 32 === 1`), so the accumulated mask's bit pattern is the OR of the
patterns `2 ^ (e % 32)`; the pattern determines the JS value and the
`controlify` comparisons. -/
def controlMaskOf (controls : List ℕ) : ℕ :=
  controls.foldl (fun a e => a ||| (1 <<< (e % 32))) 0

/-- Source `expandOp(singleQubitOperationMatrix, qubitIndex, numQubits, controls)`:
tensor the single-qubit operation into position `qubitIndex` of an
`numQubits`-qubit register (identity elsewhere), then apply `controlify`. -/
def expandOp (singleQubitOperationMatrix : JsMat) (qubitIndex numQubits : ℕ)
    (controls : List ℕ) : JsMat :=
  controlify
    ((List.range numQubits).foldl
      (fun opMatrix i =>
        tensorProduct (if i = qubitIndex then singleQubitOperationMatrix else identity 2)
          opMatrix)
      ⟨1, 1, fun _ _ => 1⟩)
    (controlMaskOf controls)

/-- The masked (pre-normalization) column built by `postselectCol`: the new
buffer with every amplitude whose bit `qubitIndex` disagrees with
`qubitValue` zeroed. -/
def maskedCol (col : JsMat) (qubitIndex : ℕ) (qubitValue : Bool) : JsMat :=
  ⟨col.width, col.height,
    fun r c => if decide (r &&& (1 <<< qubitIndex) ≠ 0) = qubitValue then col.entry r c else 0⟩

/-- Source `postselectCol(col, qubitIndex, qubitValue)`: zero out the inconsistent
amplitudes, then `normalizeCol` (an unconditional division by the masked
column's norm — the code has no zero guard). -/
def postselectCol (col : JsMat) (qubitIndex : ℕ) (qubitValue : Bool) : JsMat :=
  normalizeCol (maskedCol col qubitIndex qubitValue)

/-- The masked (pre-normalization) matrix built by `postselectDensity`: every
entry whose row or column index has bit `qubitIndex` inconsistent with
`qubitValue` is zeroed. -/
def maskedDensity (densityMatrix : JsMat) (qubitIndex : ℕ) (qubitValue : Bool) : JsMat :=
  ⟨densityMatrix.width, densityMatrix.height,
    fun r c =>
      if decide (c &&& (1 <<< qubitIndex) ≠ 0) = qubitValue ∧
          decide (r &&& (1 <<< qubitIndex) ≠ 0) = qubitValue then
        densityMatrix.entry r c
      else 0⟩

/-- Source `postselectDensity(densityMatrix, qubitIndex, qubitValue)`: zero the
inconsistent entries, then `normalizeDensity` (an unconditional division by
the masked matrix's trace — the code has no zero guard). -/
def postselectDensity (densityMatrix : JsMat) (qubitIndex : ℕ)
    (qubitValue : Bool) : JsMat :=
  normalizeDensity (maskedDensity densityMatrix qubitIndex qubitValue)

/-- The simulator: hidden true state, Eve's inferred density matrix, and the
two diagnostic counters. -/
structure EveQuantumComputer where
  actualHiddenState : JsMat
  inferredStateDensity : JsMat
  operationCount : ℕ
  expectedIgnoranceErrors : ℝ

/-- Modelled from the spec: `Util.isPowerOf2` (the constructor requires a
"power-of-2 height"); `Util.js` is not among this repository's sources. -/
def isPowerOf2 (n : ℕ) : Prop :=
  ∃ k, n = 2 ^ k

open scoped Classical in
/-- The `EveQuantumComputer` constructor.  Returns `none` when the JS code
throws ("Initial state must be a column matrix with power-of-2 height."); the
`instanceof Matrix` test is vacuous in this embedding since the input is a
`JsMat` by type.  On success: the normalized initial state, the maximally
mixed density matrix, and zeroed counters. -/
def mkEve (initialState : JsMat) : Option EveQuantumComputer :=
  if isPowerOf2 initialState.height ∧ initialState.width = 1 then
    some
      { actualHiddenState := normalizeCol initialState
        inferredStateDensity := normalizeDensity (identity initialState.height)
        operationCount := 0
        expectedIgnoranceErrors := 0 }
  else none

open scoped Classical in
/-- Source `applyOperation(opMatrix)`.  The Boolean records whether the JS code
threw ("Operation must be unitary and match the size of the state."); note
the operation counter is incremented before the validation, so the state
paired with a `true` flag is the state as left behind by the throw. -/
def applyOperation (qc : EveQuantumComputer) (opMatrix : JsMat) :
    Bool × EveQuantumComputer :=
  if opMatrix.width ≠ qc.actualHiddenState.height ∨
      opMatrix.height ≠ qc.actualHiddenState.height ∨
      ¬ isUnitary opMatrix 0.001 then
    (true, { qc with operationCount := qc.operationCount + 1 })
  else
    (false,
      { actualHiddenState := times opMatrix qc.actualHiddenState
        inferredStateDensity :=
          times (times opMatrix qc.inferredStateDensity) (adjoint opMatrix)
        operationCount := qc.operationCount + 1
        expectedIgnoranceErrors := qc.expectedIgnoranceErrors })

/-- The `actualOnNess` accumulated by the measurement loop: the sum of
squared amplitude magnitudes (`cr*cr + ci*ci`) over the basis indices having
bit `qubitIndex` set. -/
def actualOnNess (qc : EveQuantumComputer) (qubitIndex : ℕ) : ℝ :=
  ∑ i ∈ Finset.range qc.actualHiddenState.height,
    if i &&& (1 <<< qubitIndex) ≠ 0 then
      (qc.actualHiddenState.entry i 0).re ^ 2 + (qc.actualHiddenState.entry i 0).im ^ 2
    else 0

/-- The `predictedOnNess` accumulated by the measurement loop: the sum of
the real parts of the diagonal density-matrix entries
(`inferredBuf[i*(actualBuf.length/2 + 1)]`) over the same basis indices. -/
def predictedOnNess (qc : EveQuantumComputer) (qubitIndex : ℕ) : ℝ :=
  ∑ i ∈ Finset.range qc.actualHiddenState.height,
    if i &&& (1 <<< qubitIndex) ≠ 0 then (qc.inferredStateDensity.entry i i).re
    else 0

open scoped Classical in
/-- The sampled measurement outcome `Math.random() < actualOnNess`; the
call's single draw from the random source is the explicit parameter
`sample`. -/
def measureResult (qc : EveQuantumComputer) (qubitIndex : ℕ) (sample : ℝ) : Bool :=
  if sample < actualOnNess qc qubitIndex then true else false

/-- Source `measureQubit(qubitIndex)`.  Returns the sampled Boolean, post-selects
both representations onto it, increments the operation counter, and
accumulates `|predictedOnNess - actualOnNess|` into the misprediction
counter. -/
def measureQubit (qc : EveQuantumComputer) (qubitIndex : ℕ) (sample : ℝ) :
    Bool × EveQuantumComputer :=
  (measureResult qc qubitIndex sample,
    { actualHiddenState :=
        postselectCol qc.actualHiddenState qubitIndex (measureResult qc qubitIndex sample)
      inferredStateDensity :=
        postselectDensity qc.inferredStateDensity qubitIndex
          (measureResult qc qubitIndex sample)
      operationCount := qc.operationCount + 1
      expectedIgnoranceErrors :=
        qc.expectedIgnoranceErrors +
          |predictedOnNess qc qubitIndex - actualOnNess qc qubitIndex| })

/-- The computational basis column vector of height `d` with a 1 at `c0`. -/
def basisCol (d c0 : ℕ) : JsMat :=
  ⟨1, d, fun r _ => if r = c0 then 1 else 0⟩

/-- Modelled from the spec: the Pauli X matrix (supplied to the core as data
by a companion utility module). -/
def pauliX : JsMat :=
  ⟨2, 2, fun r c => if r = 0 ∧ c = 1 then 1 else if r = 1 ∧ c = 0 then 1 else 0⟩

/-- Modelled from the spec: the Pauli Y matrix. -/
def pauliY : JsMat :=
  ⟨2, 2, fun r c =>
    if r = 0 ∧ c = 1 then -Complex.I else if r = 1 ∧ c = 0 then Complex.I else 0⟩

/-- Modelled from the spec: the Pauli Z matrix. -/
def pauliZ : JsMat :=
  ⟨2, 2, fun r c => if r = 0 ∧ c = 0 then 1 else if r = 1 ∧ c = 1 then -1 else 0⟩

/-- Modelled from the spec: `Matrix.qubitDensityMatrixToBlochVector`
(`Matrix.js` is not among this repository's sources) — the standard
Pauli-expectation decomposition of a 2×2 density matrix into Bloch-sphere
coordinates `(tr(ρX), tr(ρY), tr(ρZ))`. -/
def blochVec (d : JsMat) : ℝ × ℝ × ℝ :=
  ((trace (times d pauliX)).re, (trace (times d pauliY)).re, (trace (times d pauliZ)).re)

/-- Modelled from the JavaScript builtin `Number.prototype.toFixed(4)`: the
numeric value of the 4-decimal-digit rounding of `x`. -/
def toFixed4 (x : ℝ) : ℝ :=
  (round (x * 10000) : ℤ) / 10000

/-- Source `qubitTraceDistance(d1, d2)`: half the Euclidean distance between the two
Bloch vectors, rounded via `.toFixed(4)`. -/
def qubitTraceDistance (d1 d2 : JsMat) : ℝ :=
  toFixed4
    (Real.sqrt
        (((blochVec d2).1 - (blochVec d1).1) ^ 2 +
          ((blochVec d2).2.1 - (blochVec d1).2.1) ^ 2 +
          ((blochVec d2).2.2 - (blochVec d1).2.2) ^ 2) /
      2)

/-! ## Helper lemmas -/

/-- The test `i &&& (1 <<< k) ≠ 0` is exactly "bit `k` of `i` is set". -/
theorem and_shift_ne_zero_iff (i k : ℕ) : i &&& (1 <<< k) ≠ 0 ↔ i.testBit k = true := by
  rw [Nat.shiftLeft_eq, one_mul, Nat.and_two_pow]
  cases h : i.testBit k <;> simp [h, (Nat.two_pow_pos k).ne']

/-- Bit `k` of any index below `2 ^ k` is clear. -/
theorem and_shift_eq_zero_of_lt {i k : ℕ} (h : i < 2 ^ k) : (i &&& (1 <<< k) ≠ 0) = False := by
  simp [and_shift_ne_zero_iff, Nat.testBit_lt_two_pow h]

/-- The equation `x &&& r = x` says every set bit of `x` is also set in `r`. -/
theorem and_eq_self_iff (x r : ℕ) :
    x &&& r = x ↔ ∀ j, x.testBit j = true → r.testBit j = true := by
  constructor
  · intro h j hj
    have hb := congrArg (fun n => n.testBit j) h
    simpa [Nat.testBit_and, hj] using hb
  · intro h
    apply Nat.eq_of_testBit_eq
    intro j
    rw [Nat.testBit_and]
    cases hx : x.testBit j
    · simp
    · simp [h j hx]

theorem testBit_foldl_or (C : List ℕ) (a j : ℕ) :
    (C.foldl (fun a e => a ||| (1 <<< (e % 32))) a).testBit j = true ↔
      a.testBit j = true ∨ ∃ e ∈ C, e % 32 = j := by
  induction C generalizing a with
  | nil => simp
  | cons e C ih =>
    rw [List.foldl_cons, ih]
    rw [Nat.testBit_or, Nat.shiftLeft_eq, one_mul, Nat.testBit_two_pow]
    constructor
    · rintro (h | h)
      · rcases Bool.or_eq_true_iff.mp h with h | h
        · exact Or.inl h
        · exact Or.inr ⟨e, List.mem_cons_self e C, of_decide_eq_true h⟩
      · obtain ⟨f, hf, hfj⟩ := h
        exact Or.inr ⟨f, List.mem_cons_of_mem e hf, hfj⟩
    · rintro (h | h)
      · exact Or.inl (by simp [h])
      · obtain ⟨f, hf, hfj⟩ := h
        rcases List.mem_cons.mp hf with rfl | hf2
        · exact Or.inl (by simp [hfj])
        · exact Or.inr ⟨f, hf2, hfj⟩

/-- A set bit of `controlMaskOf C` is exactly a member of `C` reduced mod 32
(the JS shift count wraps). -/
theorem testBit_controlMaskOf (C : List ℕ) (j : ℕ) :
    (controlMaskOf C).testBit j = true ↔ ∃ e ∈ C, e % 32 = j := by
  rw [controlMaskOf, testBit_foldl_or]
  simp

/-- The `controlify` mask test `(controlMask & r) === controlMask` holds
exactly when the bits of `r` at the wrapped control positions are all set. -/
theorem controlMask_and_eq_iff (C : List ℕ) (r : ℕ) :
    controlMaskOf C &&& r = controlMaskOf C ↔
      ∀ e ∈ C, r.testBit (e % 32) = true := by
  rw [and_eq_self_iff]
  constructor
  · intro h e he
    exact h (e % 32) ((testBit_controlMaskOf C (e % 32)).mpr ⟨e, he, rfl⟩)
  · intro h j hj
    obtain ⟨e, he, hej⟩ := (testBit_controlMaskOf C j).mp hj
    rw [← hej]
    exact h e he

/-- The total squared-amplitude mass of a column vector (summed over its
height). -/
def colMass (m : JsMat) : ℝ :=
  ∑ k ∈ Finset.range m.height, Complex.normSq (m.entry k 0)

theorem colMass_nonneg (m : JsMat) : 0 ≤ colMass m :=
  Finset.sum_nonneg fun _ _ => Complex.normSq_nonneg _

/-- For a width-1 column, `adjoint(m)·m` has the single entry `Σ |amp|²`. -/
theorem trace_adjoint_times_self (m : JsMat) (h : m.width = 1) :
    trace (times (adjoint m) m) = ((colMass m : ℝ) : ℂ) := by
  have hh : (times (adjoint m) m).height = 1 := by simp [times, adjoint, h]
  rw [trace, hh, Finset.sum_range_one]
  show (∑ k ∈ Finset.range (adjoint m).width,
      starRingEnd ℂ (m.entry k 0) * m.entry k 0) = _
  have hw : (adjoint m).width = m.height := rfl
  rw [hw, colMass]
  push_cast
  refine Finset.sum_congr rfl fun k _ => ?_
  rw [mul_comm, Complex.mul_conj]

/-- The value `absCol` of a width-1 column is the square root of its mass. -/
theorem absCol_eq_sqrt_colMass (m : JsMat) (h : m.width = 1) :
    absCol m = Real.sqrt (colMass m) := by
  rw [absCol, trace_adjoint_times_self m h, Complex.abs_ofReal,
    abs_of_nonneg (colMass_nonneg m)]

theorem colMass_scalarTimes (m : JsMat) (z : ℂ) :
    colMass (scalarTimes m z) = Complex.normSq z * colMass m := by
  simp only [colMass, scalarTimes, Complex.normSq_mul, Finset.mul_sum]
  exact Finset.sum_congr rfl fun k _ => mul_comm _ _

/-- Renormalizing a width-1 column of nonzero mass yields unit norm. -/
theorem absCol_normalizeCol (m : JsMat) (hw : m.width = 1) (hm : colMass m ≠ 0) :
    absCol (normalizeCol m) = 1 := by
  have hw2 : (normalizeCol m).width = 1 := hw
  rw [absCol_eq_sqrt_colMass _ hw2, normalizeCol, colMass_scalarTimes,
    Complex.normSq_ofReal, absCol_eq_sqrt_colMass m hw]
  have hkey : (Real.sqrt (colMass m))⁻¹ * (Real.sqrt (colMass m))⁻¹ * colMass m = 1 := by
    rw [← mul_inv, Real.mul_self_sqrt (colMass_nonneg m)]
    exact inv_mul_cancel₀ hm
  rw [hkey, Real.sqrt_one]

theorem trace_scalarTimes (m : JsMat) (z : ℂ) :
    trace (scalarTimes m z) = trace m * z := by
  simp [trace, scalarTimes, Finset.sum_mul]

/-- Renormalizing a matrix of nonzero trace yields unit absolute trace. -/
theorem abs_trace_normalizeDensity (m : JsMat) (ht : trace m ≠ 0) :
    Complex.abs (trace (normalizeDensity m)) = 1 := by
  rw [normalizeDensity, trace_scalarTimes, map_mul, Complex.abs_ofReal,
    abs_of_nonneg (inv_nonneg.mpr (Complex.abs.nonneg _))]
  exact mul_inv_cancel₀ (Complex.abs.ne_zero ht)

/-- Conjugated-square expansion of a product of sums. -/
theorem conj_mul_sum_expand (d : ℕ) (U : ℕ → ℕ → ℂ) (v : ℕ → ℂ) (r : ℕ) :
    starRingEnd ℂ (∑ k ∈ Finset.range d, U r k * v k) * (∑ j ∈ Finset.range d, U r j * v j) =
      ∑ k ∈ Finset.range d, ∑ j ∈ Finset.range d,
        (starRingEnd ℂ (U r k) * U r j) * (starRingEnd ℂ (v k) * v j) := by
  rw [map_sum, Finset.sum_mul_sum]
  refine Finset.sum_congr rfl fun k _ => Finset.sum_congr rfl fun j _ => ?_
  rw [map_mul]
  ring

/-- Columns of an inner-product-preserving family: applying `U` with
orthonormal columns preserves the quadratic form `Σ conj(x)·x`. -/
theorem unitary_sum_core (d : ℕ) (U : ℕ → ℕ → ℂ) (v : ℕ → ℂ)
    (hU : ∀ k < d, ∀ j < d,
      (∑ r ∈ Finset.range d, starRingEnd ℂ (U r k) * U r j) = if k = j then 1 else 0) :
    (∑ r ∈ Finset.range d,
        starRingEnd ℂ (∑ k ∈ Finset.range d, U r k * v k) *
          (∑ j ∈ Finset.range d, U r j * v j)) =
      ∑ k ∈ Finset.range d, starRingEnd ℂ (v k) * v k := by
  have h1 : (∑ r ∈ Finset.range d,
      starRingEnd ℂ (∑ k ∈ Finset.range d, U r k * v k) *
        (∑ j ∈ Finset.range d, U r j * v j)) =
      ∑ k ∈ Finset.range d, ∑ j ∈ Finset.range d,
        (∑ r ∈ Finset.range d, starRingEnd ℂ (U r k) * U r j) *
          (starRingEnd ℂ (v k) * v j) := by
    rw [Finset.sum_congr rfl fun r _ => conj_mul_sum_expand d U v r, Finset.sum_comm]
    refine Finset.sum_congr rfl fun k _ => ?_
    rw [Finset.sum_comm]
    refine Finset.sum_congr rfl fun j _ => ?_
    rw [Finset.sum_mul]
  rw [h1]
  refine Finset.sum_congr rfl fun k hk => ?_
  have h2 : ∀ j ∈ Finset.range d,
      (∑ r ∈ Finset.range d, starRingEnd ℂ (U r k) * U r j) *
        (starRingEnd ℂ (v k) * v j) =
      (if k = j then 1 else 0) * (starRingEnd ℂ (v k) * v j) := by
    intro j hj
    rw [hU k (Finset.mem_range.mp hk) j (Finset.mem_range.mp hj)]
  rw [Finset.sum_congr rfl h2]
  simp only [ite_mul, one_mul, zero_mul]
  rw [Finset.sum_ite_eq (Finset.range d) k fun j => starRingEnd ℂ (v k) * v j,
    if_pos hk]

/-- Trace invariance under conjugation by a matrix with orthonormal
columns. -/
theorem unitary_trace_core (d : ℕ) (U ρ : ℕ → ℕ → ℂ)
    (hU : ∀ k < d, ∀ j < d,
      (∑ r ∈ Finset.range d, starRingEnd ℂ (U r k) * U r j) = if k = j then 1 else 0) :
    (∑ i ∈ Finset.range d, ∑ t ∈ Finset.range d,
        (∑ j ∈ Finset.range d, U i j * ρ j t) * starRingEnd ℂ (U i t)) =
      ∑ j ∈ Finset.range d, ρ j j := by
  have h1 : (∑ i ∈ Finset.range d, ∑ t ∈ Finset.range d,
      (∑ j ∈ Finset.range d, U i j * ρ j t) * starRingEnd ℂ (U i t)) =
      ∑ t ∈ Finset.range d, ∑ j ∈ Finset.range d,
        ρ j t * (∑ i ∈ Finset.range d, starRingEnd ℂ (U i t) * U i j) := by
    rw [Finset.sum_comm]
    refine Finset.sum_congr rfl fun t _ => ?_
    have h2 : ∀ i ∈ Finset.range d,
        (∑ j ∈ Finset.range d, U i j * ρ j t) * starRingEnd ℂ (U i t) =
        ∑ j ∈ Finset.range d, ρ j t * (starRingEnd ℂ (U i t) * U i j) := by
      intro i _
      rw [Finset.sum_mul]
      exact Finset.sum_congr rfl fun j _ => by ring
    rw [Finset.sum_congr rfl h2, Finset.sum_comm]
    refine Finset.sum_congr rfl fun j _ => ?_
    rw [← Finset.mul_sum]
  rw [h1]
  have h3 : ∀ t ∈ Finset.range d, ∀ j ∈ Finset.range d,
      ρ j t * (∑ i ∈ Finset.range d, starRingEnd ℂ (U i t) * U i j) =
      ρ j t * (if t = j then 1 else 0) := by
    intro t ht j hj
    rw [hU t (Finset.mem_range.mp ht) j (Finset.mem_range.mp hj)]
  rw [Finset.sum_congr rfl fun t ht =>
    Finset.sum_congr rfl fun j hj => h3 t ht j hj]
  have h4 : ∀ t ∈ Finset.range d,
      (∑ j ∈ Finset.range d, ρ j t * (if t = j then 1 else 0)) =
      ρ t t := by
    intro t ht
    simp only [mul_ite, mul_one, mul_zero]
    rw [Finset.sum_ite_eq (Finset.range d) t fun j => ρ j t, if_pos ht]
  rw [Finset.sum_congr rfl h4]

theorem sum_normSq_eq_re (d : ℕ) (x : ℕ → ℂ) :
    ∑ k ∈ Finset.range d, Complex.normSq (x k) =
      (∑ k ∈ Finset.range d, starRingEnd ℂ (x k) * x k).re := by
  rw [Complex.re_sum]
  refine Finset.sum_congr rfl fun k _ => ?_
  rw [mul_comm, Complex.mul_conj, Complex.ofReal_re]

/-- Applying a matrix with orthonormal columns preserves a column's mass. -/
theorem colMass_times_unitary (U v : JsMat) (d : ℕ)
    (hUw : U.width = d) (hUh : U.height = d) (hvh : v.height = d)
    (hU : ∀ k < d, ∀ j < d, (times (adjoint U) U).entry k j = if k = j then 1 else 0) :
    colMass (times U v) = colMass v := by
  have hcore := unitary_sum_core d (fun r c => U.entry r c) (fun k => v.entry k 0)
    (by
      intro k hk j hj
      have h := hU k hk j hj
      simp only [times, adjoint, hUh] at h
      exact h)
  have hh : (times U v).height = d := hUh
  simp only [colMass]
  rw [hh, hvh]
  have hentry : ∀ k, (times U v).entry k 0 = ∑ t ∈ Finset.range d, U.entry k t * v.entry t 0 := by
    intro k
    simp [times, hUw]
  rw [Finset.sum_congr rfl fun k _ => congrArg Complex.normSq (hentry k)]
  rw [sum_normSq_eq_re, sum_normSq_eq_re]
  exact congrArg Complex.re hcore

/-- Conjugating a square matrix by a matrix with orthonormal columns
preserves its trace. -/
theorem trace_times_times_adjoint (U ρ : JsMat) (d : ℕ)
    (hUw : U.width = d) (hUh : U.height = d) (hρw : ρ.width = d) (hρh : ρ.height = d)
    (hU : ∀ k < d, ∀ j < d, (times (adjoint U) U).entry k j = if k = j then 1 else 0) :
    trace (times (times U ρ) (adjoint U)) = trace ρ := by
  have hcore := unitary_trace_core d (fun r c => U.entry r c) (fun r c => ρ.entry r c)
    (by
      intro k hk j hj
      have h := hU k hk j hj
      simp only [times, adjoint, hUh] at h
      exact h)
  have hh : (times (times U ρ) (adjoint U)).height = d := hUh
  simp only [trace]
  rw [hh]
  have hentry : ∀ i, (times (times U ρ) (adjoint U)).entry i i =
      ∑ t ∈ Finset.range d, (∑ j ∈ Finset.range d, U.entry i j * ρ.entry j t) *
        starRingEnd ℂ (U.entry i t) := by
    intro i
    simp [times, adjoint, hρw, hUw]
  rw [Finset.sum_congr rfl fun i _ => hentry i, hcore]
  simp only [trace]
  rw [hρh]

/-! ## Claim theorems -/

/-- C1: for a simulator whose true state has height `2^n`, `applyOperation`
throws exactly when the operator is not `2^n × 2^n` or fails the unitarity
check at tolerance `0.001`; on success the true state becomes `U·v`, the
inferred density matrix becomes `U·ρ·adjoint(U)`, and the operation counter
increases by exactly 1. -/
theorem applyOperation_spec (qc : EveQuantumComputer) (opMatrix : JsMat) (n : ℕ)
    (hd : qc.actualHiddenState.height = 2 ^ n) :
    ((applyOperation qc opMatrix).1 = true ↔
      ¬ (opMatrix.width = 2 ^ n ∧ opMatrix.height = 2 ^ n ∧ isUnitary opMatrix 0.001)) ∧
    ((applyOperation qc opMatrix).1 = false →
      (applyOperation qc opMatrix).2.actualHiddenState =
          times opMatrix qc.actualHiddenState ∧
        (applyOperation qc opMatrix).2.inferredStateDensity =
          times (times opMatrix qc.inferredStateDensity) (adjoint opMatrix) ∧
        (applyOperation qc opMatrix).2.operationCount = qc.operationCount + 1) := by
  by_cases h : opMatrix.width ≠ qc.actualHiddenState.height ∨
      opMatrix.height ≠ qc.actualHiddenState.height ∨ ¬ isUnitary opMatrix 0.001
  · rw [applyOperation, if_pos h]
    rw [hd] at h
    refine ⟨?_, ?_⟩
    · simp only [iff_true]
      tauto
    · intro hf
      simp at hf
  · rw [applyOperation, if_neg h]
    rw [hd] at h
    push_neg at h
    exact ⟨by simp [h.1, h.2.1, h.2.2], fun _ => ⟨rfl, rfl, rfl⟩⟩

/-- A concrete 1×1 column with entry 1 (a normalized state of `2^0` qubits). -/
def wCol1 : JsMat := ⟨1, 1, fun _ _ => 1⟩

/-- A concrete simulator over a 1-dimensional state space. -/
def wQC1 : EveQuantumComputer := ⟨wCol1, wCol1, 0, 0⟩

/-- Witness for C1 at the concrete simulator `wQC1` and operator
`identity 1`. -/
theorem applyOperation_spec_witness :
    wQC1.actualHiddenState.height = 2 ^ 0 ∧
      (((applyOperation wQC1 (identity 1)).1 = true ↔
        ¬ ((identity 1).width = 2 ^ 0 ∧ (identity 1).height = 2 ^ 0 ∧
            isUnitary (identity 1) 0.001)) ∧
      ((applyOperation wQC1 (identity 1)).1 = false →
        (applyOperation wQC1 (identity 1)).2.actualHiddenState =
            times (identity 1) wQC1.actualHiddenState ∧
          (applyOperation wQC1 (identity 1)).2.inferredStateDensity =
            times (times (identity 1) wQC1.inferredStateDensity) (adjoint (identity 1)) ∧
          (applyOperation wQC1 (identity 1)).2.operationCount =
            wQC1.operationCount + 1)) :=
  ⟨rfl, applyOperation_spec wQC1 (identity 1) 0 rfl⟩

/-- C5: construction fails exactly when the initial matrix's height is not a
power of two or its width is not 1; on success the true state is the input
divided by its norm, the inferred density matrix is the maximally mixed state
`identity / dimension`, and both counters are zero. -/
theorem mkEve_spec (v : JsMat) :
    (mkEve v = none ↔ ¬ ((∃ k, v.height = 2 ^ k) ∧ v.width = 1)) ∧
    (∀ qc, mkEve v = some qc →
      (∀ r c, qc.actualHiddenState.entry r c =
          v.entry r c /
            ((Real.sqrt (∑ i ∈ Finset.range v.height, Complex.normSq (v.entry i 0)) : ℝ) :
              ℂ)) ∧
        (∀ r c, qc.inferredStateDensity.entry r c =
          if r = c then ((v.height : ℂ))⁻¹ else 0) ∧
        qc.operationCount = 0 ∧ qc.expectedIgnoranceErrors = 0) := by
  by_cases h : isPowerOf2 v.height ∧ v.width = 1
  · rw [mkEve, if_pos h]
    refine ⟨by simp [isPowerOf2] at h; simp [h.1, h.2], ?_⟩
    intro qc hqc
    obtain rfl : _ = qc := Option.some.inj hqc
    refine ⟨?_, ?_, rfl, rfl⟩
    · intro r c
      simp [normalizeCol, scalarTimes, absCol_eq_sqrt_colMass v h.2, colMass,
        div_eq_mul_inv, Complex.ofReal_inv]
    · intro r c
      have ht : trace (identity v.height) = (v.height : ℂ) := by
        simp [trace, identity]
      simp only [normalizeDensity, scalarTimes]
      rw [ht]
      simp [identity, Complex.abs_natCast, Complex.ofReal_inv, Complex.ofReal_natCast,
        ite_mul, one_mul, zero_mul]
  · rw [mkEve, if_neg h]
    refine ⟨by simpa [isPowerOf2] using h, ?_⟩
    intro qc hqc
    simp at hqc

/-- The concrete column vector `[1, 0]` (height 2 = 2^1, width 1). -/
def wVCol : JsMat := ⟨1, 2, fun r _ => if r = 0 then 1 else 0⟩

/-- The simulator state `mkEve wVCol` constructs. -/
def wQCmk : EveQuantumComputer :=
  { actualHiddenState := normalizeCol wVCol
    inferredStateDensity := normalizeDensity (identity wVCol.height)
    operationCount := 0
    expectedIgnoranceErrors := 0 }

/-- Witness for C5: constructing from the concrete column `[1, 0]` succeeds,
with maximally mixed density entry `1/2` and zeroed counters. -/
theorem mkEve_spec_witness :
    mkEve wVCol = some wQCmk ∧
      (wQCmk.inferredStateDensity.entry 0 0 =
        if (0 : ℕ) = 0 then ((wVCol.height : ℂ))⁻¹ else 0) ∧
      wQCmk.operationCount = 0 ∧ wQCmk.expectedIgnoranceErrors = 0 := by
  have h : mkEve wVCol = some wQCmk := by
    rw [mkEve, if_pos (⟨⟨1, rfl⟩, rfl⟩ : isPowerOf2 wVCol.height ∧ wVCol.width = 1)]
    rfl
  exact ⟨h, ((mkEve_spec wVCol).2 wQCmk h).2.1 0 0,
    ((mkEve_spec wVCol).2 wQCmk h).2.2⟩

/-- A concrete 1×1 operator with entry 2: the right size, but far from
unitary. -/
def wBadOp : JsMat := ⟨1, 1, fun _ _ => 2⟩

theorem wBadOp_not_unitary : ¬ isUnitary wBadOp 0.001 := by
  rintro ⟨-, hall⟩
  have h := hall 0 (by norm_num [wBadOp]) 0 (by norm_num [wBadOp])
  simp only [times, adjoint, identity, wBadOp, Finset.sum_range_one] at h
  norm_num at h
  rw [show ((2 : ℂ) * starRingEnd ℂ 2 - 1) = 3 by norm_num [Complex.ext_iff]] at h
  rw [show Complex.abs 3 = 3 by
    rw [show (3 : ℂ) = ((3 : ℝ) : ℂ) by norm_num, Complex.abs_ofReal]
    norm_num] at h
  norm_num at h

theorem applyOperation_wQC1_wBadOp_throws :
    (applyOperation wQC1 wBadOp).1 = true ∧
      (applyOperation wQC1 wBadOp).2.operationCount = 1 := by
  rw [applyOperation, if_pos (Or.inr (Or.inr wBadOp_not_unitary))]
  exact ⟨rfl, rfl⟩

/-- C3 counterexample: a failing `applyOperation` call does mutate the
simulator — the operation counter changes (it is incremented before the
validation throws). -/
theorem applyOperation_failure_mutates :
    (applyOperation wQC1 wBadOp).1 = true ∧
      (applyOperation wQC1 wBadOp).2.operationCount ≠ wQC1.operationCount := by
  refine ⟨applyOperation_wQC1_wBadOp_throws.1, ?_⟩
  rw [applyOperation_wQC1_wBadOp_throws.2]
  norm_num [wQC1]

/-- C3 amended: when an operation fails, the true state, the inferred
density matrix and the misprediction score are unchanged, but a failing
`applyOperation` still increments the operation counter by 1 (the counter is
bumped before validation); a failing construction builds nothing. -/
theorem applyOperation_failure_state (qc : EveQuantumComputer) (opMatrix : JsMat)
    (h : (applyOperation qc opMatrix).1 = true) :
    (applyOperation qc opMatrix).2.actualHiddenState = qc.actualHiddenState ∧
      (applyOperation qc opMatrix).2.inferredStateDensity = qc.inferredStateDensity ∧
      (applyOperation qc opMatrix).2.expectedIgnoranceErrors =
        qc.expectedIgnoranceErrors ∧
      (applyOperation qc opMatrix).2.operationCount = qc.operationCount + 1 := by
  by_cases hc : opMatrix.width ≠ qc.actualHiddenState.height ∨
      opMatrix.height ≠ qc.actualHiddenState.height ∨ ¬ isUnitary opMatrix 0.001
  · rw [applyOperation, if_pos hc]
    exact ⟨rfl, rfl, rfl, rfl⟩
  · rw [applyOperation, if_neg hc] at h
    simp at h

/-- Witness for the amended C3 at the concrete failing call. -/
theorem applyOperation_failure_state_witness :
    (applyOperation wQC1 wBadOp).1 = true ∧
      ((applyOperation wQC1 wBadOp).2.actualHiddenState = wQC1.actualHiddenState ∧
        (applyOperation wQC1 wBadOp).2.inferredStateDensity =
          wQC1.inferredStateDensity ∧
        (applyOperation wQC1 wBadOp).2.expectedIgnoranceErrors =
          wQC1.expectedIgnoranceErrors ∧
        (applyOperation wQC1 wBadOp).2.operationCount = wQC1.operationCount + 1) :=
  ⟨applyOperation_wQC1_wBadOp_throws.1,
    applyOperation_failure_state wQC1 wBadOp applyOperation_wQC1_wBadOp_throws.1⟩

/-- C4: for a unitary operator of matching size and a well-formed simulator
state, `applyOperation` succeeds and afterwards the true state still has norm
1 and the inferred density matrix still has trace 1.  Unitarity is taken
exactly (`U·U† = U†·U = identity` on all in-range entries); the claim's
"within floating-point tolerance" hedge has no content in this exact-real
embedding. -/
theorem applyOperation_preserves_norm_and_trace
    (qc : EveQuantumComputer) (U : JsMat) (d : ℕ)
    (hd : qc.actualHiddenState.height = d)
    (hw : qc.actualHiddenState.width = 1)
    (hρw : qc.inferredStateDensity.width = d)
    (hρh : qc.inferredStateDensity.height = d)
    (hUw : U.width = d) (hUh : U.height = d)
    (hU1 : ∀ r < d, ∀ c < d, (times U (adjoint U)).entry r c = if r = c then 1 else 0)
    (hU2 : ∀ r < d, ∀ c < d, (times (adjoint U) U).entry r c = if r = c then 1 else 0)
    (hnorm : absCol qc.actualHiddenState = 1)
    (htr : trace qc.inferredStateDensity = 1) :
    (applyOperation qc U).1 = false ∧
      absCol (applyOperation qc U).2.actualHiddenState = 1 ∧
      trace (applyOperation qc U).2.inferredStateDensity = 1 := by
  have hunit : isUnitary U 0.001 := by
    refine ⟨hUw.trans hUh.symm, ?_⟩
    intro r hr c hc
    rw [hUh] at hr hc
    have : (times U (adjoint U)).entry r c = (identity U.height).entry r c := by
      rw [hU1 r hr c hc]
      simp [identity]
    rw [this, sub_self]
    norm_num
  have hcond : ¬ (U.width ≠ qc.actualHiddenState.height ∨
      U.height ≠ qc.actualHiddenState.height ∨ ¬ isUnitary U 0.001) := by
    push_neg
    exact ⟨hUw.trans hd.symm, hUh.trans hd.symm, hunit⟩
  rw [applyOperation, if_neg hcond]
  refine ⟨rfl, ?_, ?_⟩
  · have hcm : colMass qc.actualHiddenState = 1 := by
      have := hnorm
      rw [absCol_eq_sqrt_colMass _ hw] at this
      exact (Real.sqrt_eq_one.mp this)
    have hw2 : (times U qc.actualHiddenState).width = 1 := hw
    rw [absCol_eq_sqrt_colMass _ hw2,
      colMass_times_unitary U qc.actualHiddenState d hUw hUh hd hU2, hcm,
      Real.sqrt_one]
  · rw [trace_times_times_adjoint U qc.inferredStateDensity d hUw hUh hρw hρh hU2]
    exact htr

/-- Witness for C4 at the concrete simulator `wQC1` and the 1×1 identity. -/
theorem applyOperation_preserves_norm_and_trace_witness :
    absCol wQC1.actualHiddenState = 1 ∧ trace wQC1.inferredStateDensity = 1 ∧
      ((applyOperation wQC1 (identity 1)).1 = false ∧
        absCol (applyOperation wQC1 (identity 1)).2.actualHiddenState = 1 ∧
        trace (applyOperation wQC1 (identity 1)).2.inferredStateDensity = 1) := by
  have hnorm : absCol wQC1.actualHiddenState = 1 := by
    rw [absCol_eq_sqrt_colMass _ rfl]
    simp [colMass, wQC1, wCol1]
  have htr : trace wQC1.inferredStateDensity = 1 := by
    simp [trace, wQC1, wCol1]
  have hU : ∀ r < 1, ∀ c < 1,
      (times (identity 1) (adjoint (identity 1))).entry r c = if r = c then 1 else 0 := by
    intro r hr c hc
    interval_cases r
    interval_cases c
    simp [times, adjoint, identity]
  have hU2 : ∀ r < 1, ∀ c < 1,
      (times (adjoint (identity 1)) (identity 1)).entry r c = if r = c then 1 else 0 := by
    intro r hr c hc
    interval_cases r
    interval_cases c
    simp [times, adjoint, identity]
  exact ⟨hnorm, htr,
    applyOperation_preserves_norm_and_trace wQC1 (identity 1) 1 rfl rfl rfl rfl rfl rfl
      hU hU2 hnorm htr⟩

theorem foldl_tensor_dims (sq : JsMat) (qi : ℕ) (hsqw : sq.width = 2)
    (hsqh : sq.height = 2) (L : List ℕ) :
    ∀ acc : JsMat,
      ((L.foldl
          (fun opMatrix i =>
            tensorProduct (if i = qi then sq else identity 2) opMatrix) acc).width =
          2 ^ L.length * acc.width ∧
        (L.foldl
            (fun opMatrix i =>
              tensorProduct (if i = qi then sq else identity 2) opMatrix) acc).height =
          2 ^ L.length * acc.height) := by
  induction L with
  | nil => intro acc; simp
  | cons e L ih =>
    intro acc
    rw [List.foldl_cons]
    obtain ⟨ihw, ihh⟩ := ih (tensorProduct (if e = qi then sq else identity 2) acc)
    have hw : (tensorProduct (if e = qi then sq else identity 2) acc).width =
        2 * acc.width := by
      by_cases he : e = qi <;> simp [tensorProduct, he, hsqw, identity]
    have hh : (tensorProduct (if e = qi then sq else identity 2) acc).height =
        2 * acc.height := by
      by_cases he : e = qi <;> simp [tensorProduct, he, hsqh, identity]
    rw [ihw, ihh, hw, hh]
    constructor <;> · rw [List.length_cons, pow_succ]; ring

theorem expandOp_dims (sq : JsMat) (qi n : ℕ) (C : List ℕ) (hsqw : sq.width = 2)
    (hsqh : sq.height = 2) :
    (expandOp sq qi n C).width = 2 ^ n ∧ (expandOp sq qi n C).height = 2 ^ n := by
  have h := foldl_tensor_dims sq qi hsqw hsqh (List.range n) ⟨1, 1, fun _ _ => 1⟩
  simp only [List.length_range, mul_one] at h
  exact ⟨h.1, h.2⟩

/-- C6 amended: with a non-empty control list all of whose indices are below
32 (so that JavaScript's mod-32 shift-count wrap does not fire), every entry
of the expanded operator at a row or column whose control bits are not all
set is forced to the identity value, and consequently every computational
basis state whose control bits are not all set is a fixed point of the
operator. -/
theorem expandOp_controls_spec (M : JsMat) (t n : ℕ) (C : List ℕ)
    (hMw : M.width = 2) (hMh : M.height = 2) (hC : C ≠ [])
    (hC32 : ∀ e ∈ C, e < 32) :
    (∀ r c : ℕ,
      (¬ (∀ e ∈ C, r.testBit e = true) ∨ ¬ (∀ e ∈ C, c.testBit e = true)) →
        (expandOp M t n C).entry r c = if r = c then 1 else 0) ∧
    (∀ c0 < 2 ^ n, ¬ (∀ e ∈ C, c0.testBit e = true) →
      ∀ r0, (times (expandOp M t n C) (basisCol (2 ^ n) c0)).entry r0 0 =
        (basisCol (2 ^ n) c0).entry r0 0) := by
  have hforce : ∀ r c : ℕ,
      (¬ (∀ e ∈ C, r.testBit e = true) ∨ ¬ (∀ e ∈ C, c.testBit e = true)) →
        (expandOp M t n C).entry r c = if r = c then 1 else 0 := by
    intro r c hrc
    have hmod : ∀ x : ℕ, (∀ e ∈ C, x.testBit (e % 32) = true) →
        ∀ e ∈ C, x.testBit e = true := by
      intro x hx e he
      rw [← Nat.mod_eq_of_lt (hC32 e he)]
      exact hx e he
    have hcond : controlMaskOf C &&& r ≠ controlMaskOf C ∨
        controlMaskOf C &&& c ≠ controlMaskOf C := by
      rcases hrc with h | h
      · exact Or.inl fun heq => h (hmod r ((controlMask_and_eq_iff C r).mp heq))
      · exact Or.inr fun heq => h (hmod c ((controlMask_and_eq_iff C c).mp heq))
    show (controlify _ (controlMaskOf C)).entry r c = _
    rw [controlify]
    exact if_pos hcond
  refine ⟨hforce, ?_⟩
  intro c0 hc0 hfail r0
  have hEw : (expandOp M t n C).width = 2 ^ n := (expandOp_dims M t n C hMw hMh).1
  have hsum : (times (expandOp M t n C) (basisCol (2 ^ n) c0)).entry r0 0 =
      ∑ k ∈ Finset.range (2 ^ n),
        (expandOp M t n C).entry r0 k * (if k = c0 then 1 else 0) := by
    show (∑ k ∈ Finset.range (expandOp M t n C).width,
        (expandOp M t n C).entry r0 k * (basisCol (2 ^ n) c0).entry k 0) = _
    rw [hEw]
    rfl
  rw [hsum]
  simp only [mul_ite, mul_one, mul_zero]
  rw [Finset.sum_ite_eq' (Finset.range (2 ^ n)) c0 fun k => (expandOp M t n C).entry r0 k,
    if_pos (Finset.mem_range.mpr hc0)]
  rw [hforce r0 c0 (Or.inr hfail)]
  rfl

/-- Witness for C6 at the concrete instance: Pauli X on qubit 0 of a 2-qubit
register controlled on qubit 1 (a CNOT), evaluated at a row/column whose
control bit is clear. -/
theorem expandOp_controls_spec_witness :
    pauliX.width = 2 ∧ pauliX.height = 2 ∧ ([1] : List ℕ) ≠ [] ∧
      (∀ e ∈ ([1] : List ℕ), e < 32) ∧
      (¬ (∀ e ∈ ([1] : List ℕ), Nat.testBit 1 e = true) ∧
        (expandOp pauliX 0 2 [1]).entry 1 0 = if (1 : ℕ) = 0 then 1 else 0) ∧
      ((1 : ℕ) < 2 ^ 2 ∧
        (times (expandOp pauliX 0 2 [1]) (basisCol (2 ^ 2) 1)).entry 2 0 =
          (basisCol (2 ^ 2) 1).entry 2 0) := by
  have h := expandOp_controls_spec pauliX 0 2 [1] rfl rfl (by simp) (by decide)
  have hne : ¬ (∀ e ∈ ([1] : List ℕ), Nat.testBit 1 e = true) := by decide
  exact ⟨rfl, rfl, by simp, by decide, ⟨hne, h.1 1 0 (Or.inl hne)⟩,
    ⟨by norm_num, h.2 1 (by norm_num) hne 2⟩⟩

/-- C6 counterexample: JavaScript's `<<` wraps its shift count mod 32
(`1 << 32 === 1`), so for the non-empty control list `[32]` the program's
control mask is 1 and `expandOp` builds a gate controlled on qubit 0 instead
of acting as the identity: its entry at row 3, column 1 is 1, not the
identity value 0, even though bit 32 of row 3 (and of column 1) is not
set. -/
theorem expandOp_controls_wrap_counterexample :
    ([32] : List ℕ) ≠ [] ∧
      ¬ (∀ e ∈ ([32] : List ℕ), Nat.testBit 3 e = true) ∧
      (expandOp pauliX 1 2 [32]).entry 3 1 ≠ (if (3 : ℕ) = 1 then 1 else 0) := by
  refine ⟨by simp, by decide, ?_⟩
  have h32 : controlMaskOf [32] = 1 := by decide
  have hentry : (expandOp pauliX 1 2 [32]).entry 3 1 = 1 := by
    simp only [expandOp, h32, controlify]
    rw [if_neg (by decide)]
    rw [show List.range 2 = [0, 1] from rfl]
    simp only [List.foldl_cons, List.foldl_nil]
    norm_num [tensorProduct, pauliX, identity]
  rw [hentry]
  norm_num

/-- The bit test used by the measurement/post-selection loops, as a Boolean,
is `Nat.testBit`. -/
theorem decide_and_shift (i k : ℕ) :
    decide (i &&& (1 <<< k) ≠ 0) = i.testBit k := by
  rw [decide_eq_decide.mpr (and_shift_ne_zero_iff i k), Bool.decide_coe]

/-- The loop sum `actualOnNess` is the claimed sum of squared amplitude magnitudes over
the basis indices with bit `k` set. -/
theorem actualOnNess_eq_filter (qc : EveQuantumComputer) (k : ℕ) :
    actualOnNess qc k =
      ∑ i ∈ (Finset.range qc.actualHiddenState.height).filter (fun i => i.testBit k),
        Complex.normSq (qc.actualHiddenState.entry i 0) := by
  rw [actualOnNess, Finset.sum_filter]
  refine Finset.sum_congr rfl fun i _ => ?_
  rw [if_congr (and_shift_ne_zero_iff i k) rfl rfl]
  by_cases h : i.testBit k = true
  · rw [if_pos h, if_pos h, Complex.normSq_apply, pow_two, pow_two]
  · rw [if_neg h, if_neg h]

/-- The loop sum `predictedOnNess` is the claimed sum of diagonal density entries (their
real parts) over the basis indices with bit `k` set. -/
theorem predictedOnNess_eq_filter (qc : EveQuantumComputer) (k : ℕ) :
    predictedOnNess qc k =
      ∑ i ∈ (Finset.range qc.actualHiddenState.height).filter (fun i => i.testBit k),
        (qc.inferredStateDensity.entry i i).re := by
  rw [predictedOnNess, Finset.sum_filter]
  refine Finset.sum_congr rfl fun i _ => ?_
  rw [if_congr (and_shift_ne_zero_iff i k) rfl rfl]

/-- The mass of the masked column is the mass of the outcome-consistent
amplitudes. -/
theorem colMass_maskedCol (col : JsMat) (k : ℕ) (b : Bool) :
    colMass (maskedCol col k b) =
      ∑ i ∈ (Finset.range col.height).filter (fun i => i.testBit k = b),
        Complex.normSq (col.entry i 0) := by
  rw [colMass, Finset.sum_filter]
  refine Finset.sum_congr rfl fun i _ => ?_
  show Complex.normSq (if decide (i &&& (1 <<< k) ≠ 0) = b then col.entry i 0 else 0) = _
  rw [decide_and_shift]
  by_cases h : i.testBit k = b
  · rw [if_pos h, if_pos h]
  · rw [if_neg h, if_neg h, map_zero]

/-- The trace of the masked density matrix is the sum of the
outcome-consistent diagonal entries. -/
theorem trace_maskedDensity (ρ : JsMat) (k : ℕ) (b : Bool) :
    trace (maskedDensity ρ k b) =
      ∑ i ∈ (Finset.range ρ.height).filter (fun i => i.testBit k = b),
        ρ.entry i i := by
  rw [trace, Finset.sum_filter]
  refine Finset.sum_congr rfl fun i _ => ?_
  show (if decide (i &&& (1 <<< k) ≠ 0) = b ∧ decide (i &&& (1 <<< k) ≠ 0) = b
      then ρ.entry i i else 0) = _
  rw [decide_and_shift]
  by_cases h : i.testBit k = b
  · rw [if_pos ⟨h, h⟩, if_pos h]
  · rw [if_neg fun hc => h hc.1, if_neg h]

theorem measureResult_iff (qc : EveQuantumComputer) (k : ℕ) (sample : ℝ) :
    measureResult qc k sample = true ↔ sample < actualOnNess qc k := by
  rw [measureResult]
  by_cases h : sample < actualOnNess qc k
  · simp [h]
  · simp [h]

theorem postselectCol_entry (col : JsMat) (k : ℕ) (b : Bool) (hw : col.width = 1)
    (i : ℕ) :
    (postselectCol col k b).entry i 0 =
      (if i.testBit k = b then col.entry i 0 else 0) /
        ((Real.sqrt
            (∑ j ∈ (Finset.range col.height).filter (fun j => j.testBit k = b),
              Complex.normSq (col.entry j 0)) : ℝ) : ℂ) := by
  have hmask : (maskedCol col k b).entry i 0 =
      if i.testBit k = b then col.entry i 0 else 0 := by
    show (if decide (i &&& (1 <<< k) ≠ 0) = b then col.entry i 0 else 0) = _
    rw [decide_and_shift]
  show (maskedCol col k b).entry i 0 * (((absCol (maskedCol col k b))⁻¹ : ℝ) : ℂ) = _
  rw [hmask, absCol_eq_sqrt_colMass (maskedCol col k b) hw, colMass_maskedCol,
    Complex.ofReal_inv, div_eq_mul_inv]

theorem postselectDensity_entry (ρ : JsMat) (k : ℕ) (b : Bool) (r c : ℕ) :
    (postselectDensity ρ k b).entry r c =
      (if r.testBit k = b ∧ c.testBit k = b then ρ.entry r c else 0) /
        ((Complex.abs
            (∑ i ∈ (Finset.range ρ.height).filter (fun i => i.testBit k = b),
              ρ.entry i i) : ℝ) : ℂ) := by
  have hmask : (maskedDensity ρ k b).entry r c =
      if r.testBit k = b ∧ c.testBit k = b then ρ.entry r c else 0 := by
    show (if decide (c &&& (1 <<< k) ≠ 0) = b ∧ decide (r &&& (1 <<< k) ≠ 0) = b
        then ρ.entry r c else 0) = _
    rw [decide_and_shift, decide_and_shift]
    by_cases h1 : r.testBit k = b <;> by_cases h2 : c.testBit k = b <;>
      simp [h1, h2]
  show (maskedDensity ρ k b).entry r c *
      (((Complex.abs (trace (maskedDensity ρ k b)))⁻¹ : ℝ) : ℂ) = _
  rw [hmask, trace_maskedDensity, Complex.ofReal_inv, div_eq_mul_inv]

/-- C2: `measureQubit` computes the actual on-probability as the sum of
squared amplitude magnitudes over bit-set indices of the true state and the
predicted on-probability as the corresponding diagonal density entries,
returns `sample < actual`, accumulates `|predicted - actual|` into the
misprediction counter, and replaces both representations by their
post-selection onto the outcome (inconsistent amplitudes/entries zeroed,
divided by the masked norm resp. masked trace; the result has unit norm
resp. unit trace whenever the post-selected mass is nonzero). -/
theorem measureQubit_spec (qc : EveQuantumComputer) (k : ℕ) (sample : ℝ)
    (hw : qc.actualHiddenState.width = 1) :
    ((measureQubit qc k sample).1 = true ↔
      sample <
        ∑ i ∈ (Finset.range qc.actualHiddenState.height).filter (fun i => i.testBit k),
          Complex.normSq (qc.actualHiddenState.entry i 0)) ∧
    ((measureQubit qc k sample).2.expectedIgnoranceErrors =
      qc.expectedIgnoranceErrors +
        |(∑ i ∈ (Finset.range qc.actualHiddenState.height).filter (fun i => i.testBit k),
              (qc.inferredStateDensity.entry i i).re) -
            ∑ i ∈ (Finset.range qc.actualHiddenState.height).filter (fun i => i.testBit k),
              Complex.normSq (qc.actualHiddenState.entry i 0)|) ∧
    (∀ i, (measureQubit qc k sample).2.actualHiddenState.entry i 0 =
      (if i.testBit k = (measureQubit qc k sample).1 then qc.actualHiddenState.entry i 0
        else 0) /
        ((Real.sqrt
            (∑ j ∈ (Finset.range qc.actualHiddenState.height).filter
                (fun j => j.testBit k = (measureQubit qc k sample).1),
              Complex.normSq (qc.actualHiddenState.entry j 0)) : ℝ) : ℂ)) ∧
    (∀ r c, (measureQubit qc k sample).2.inferredStateDensity.entry r c =
      (if r.testBit k = (measureQubit qc k sample).1 ∧
          c.testBit k = (measureQubit qc k sample).1 then
        qc.inferredStateDensity.entry r c else 0) /
        ((Complex.abs
            (∑ i ∈ (Finset.range qc.inferredStateDensity.height).filter
                (fun i => i.testBit k = (measureQubit qc k sample).1),
              qc.inferredStateDensity.entry i i) : ℝ) : ℂ)) ∧
    ((∑ j ∈ (Finset.range qc.actualHiddenState.height).filter
          (fun j => j.testBit k = (measureQubit qc k sample).1),
        Complex.normSq (qc.actualHiddenState.entry j 0)) ≠ 0 →
      absCol (measureQubit qc k sample).2.actualHiddenState = 1) ∧
    ((∑ i ∈ (Finset.range qc.inferredStateDensity.height).filter
          (fun i => i.testBit k = (measureQubit qc k sample).1),
        qc.inferredStateDensity.entry i i) ≠ 0 →
      Complex.abs (trace (measureQubit qc k sample).2.inferredStateDensity) = 1) := by
  refine ⟨?_, ?_, ?_, ?_, ?_, ?_⟩
  · rw [show (measureQubit qc k sample).1 = measureResult qc k sample from rfl,
      measureResult_iff, actualOnNess_eq_filter]
  · show qc.expectedIgnoranceErrors + |predictedOnNess qc k - actualOnNess qc k| = _
    rw [predictedOnNess_eq_filter, actualOnNess_eq_filter]
  · intro i
    exact postselectCol_entry qc.actualHiddenState k _ hw i
  · intro r c
    exact postselectDensity_entry qc.inferredStateDensity k _ r c
  · intro hmass
    show absCol (postselectCol qc.actualHiddenState k (measureResult qc k sample)) = 1
    refine absCol_normalizeCol _ hw ?_
    rw [colMass_maskedCol]
    exact hmass
  · intro htr
    show Complex.abs
        (trace (postselectDensity qc.inferredStateDensity k (measureResult qc k sample))) = 1
    refine abs_trace_normalizeDensity _ ?_
    rw [trace_maskedDensity]
    exact htr

/-- The concrete column vector `[0, 1]` (the 1-qubit basis state "on"). -/
def wCol01 : JsMat := ⟨1, 2, fun r _ => if r = 1 then 1 else 0⟩

/-- The concrete maximally mixed 1-qubit density matrix `identity/2`. -/
def wDenHalf : JsMat := ⟨2, 2, fun r c => if r = c then (((1 / 2 : ℝ)) : ℂ) else 0⟩

/-- A concrete 1-qubit simulator: true state `[0, 1]`, maximally mixed
inferred density. -/
def wQC2 : EveQuantumComputer := ⟨wCol01, wDenHalf, 0, 0⟩

/-- Witness for C2 at the concrete simulator `wQC2`, qubit 0,
sample `1/2`. -/
theorem measureQubit_spec_witness :
    wQC2.actualHiddenState.width = 1 ∧
      ((measureQubit wQC2 0 (1 / 2)).1 = true ↔
        1 / 2 <
          ∑ i ∈ (Finset.range wQC2.actualHiddenState.height).filter
              (fun i => i.testBit 0),
            Complex.normSq (wQC2.actualHiddenState.entry i 0)) ∧
      ((∑ j ∈ (Finset.range wQC2.actualHiddenState.height).filter
            (fun j => j.testBit 0 = (measureQubit wQC2 0 (1 / 2)).1),
          Complex.normSq (wQC2.actualHiddenState.entry j 0)) ≠ 0 →
        absCol (measureQubit wQC2 0 (1 / 2)).2.actualHiddenState = 1) :=
  ⟨rfl, (measureQubit_spec wQC2 0 (1 / 2) rfl).1,
    (measureQubit_spec wQC2 0 (1 / 2) rfl).2.2.2.2.1⟩

/-- After post-selecting a column onto outcome `false`, the bit-set
amplitudes all vanish. -/
theorem onNessCol_postselect_false (v : JsMat) (k : ℕ) (hw : v.width = 1) :
    (∑ i ∈ (Finset.range v.height).filter (fun i => i.testBit k),
      Complex.normSq ((postselectCol v k false).entry i 0)) = 0 := by
  refine Finset.sum_eq_zero fun i hi => ?_
  have hbit : i.testBit k = true := (Finset.mem_filter.mp hi).2
  rw [postselectCol_entry v k false hw i, if_neg (by simp [hbit])]
  simp

/-- After post-selecting a column of positive selected mass onto outcome
`true`, the bit-set amplitudes carry total mass 1. -/
theorem onNessCol_postselect_true (v : JsMat) (k : ℕ) (hw : v.width = 1)
    (hS : 0 < ∑ i ∈ (Finset.range v.height).filter (fun i => i.testBit k),
      Complex.normSq (v.entry i 0)) :
    (∑ i ∈ (Finset.range v.height).filter (fun i => i.testBit k),
      Complex.normSq ((postselectCol v k true).entry i 0)) = 1 := by
  have hterm : ∀ i ∈ (Finset.range v.height).filter (fun i => i.testBit k),
      Complex.normSq ((postselectCol v k true).entry i 0) =
        Complex.normSq (v.entry i 0) /
          (∑ j ∈ (Finset.range v.height).filter (fun j => j.testBit k),
            Complex.normSq (v.entry j 0)) := by
    intro i hi
    have hbit : i.testBit k = true := (Finset.mem_filter.mp hi).2
    rw [postselectCol_entry v k true hw i, if_pos hbit, Complex.normSq_div,
      Complex.normSq_ofReal, Real.mul_self_sqrt (Finset.sum_nonneg fun _ _ =>
        Complex.normSq_nonneg _)]
  rw [Finset.sum_congr rfl hterm, ← Finset.sum_div, div_self hS.ne']

/-- After post-selecting a density matrix onto outcome `false`, the bit-set
diagonal entries all vanish. -/
theorem diagRe_postselect_false (ρ : JsMat) (k : ℕ) (h : ℕ) :
    (∑ i ∈ (Finset.range h).filter (fun i => i.testBit k),
      ((postselectDensity ρ k false).entry i i).re) = 0 := by
  refine Finset.sum_eq_zero fun i hi => ?_
  have hbit : i.testBit k = true := (Finset.mem_filter.mp hi).2
  rw [postselectDensity_entry ρ k false i i, if_neg (by simp [hbit])]
  simp

/-- After post-selecting a density matrix with real diagonal and positive
selected diagonal mass onto outcome `true`, the bit-set diagonal entries sum
to 1. -/
theorem diagRe_postselect_true (ρ : JsMat) (k : ℕ) (h : ℕ) (hdh : ρ.height = h)
    (him : ∀ i, (ρ.entry i i).im = 0)
    (hq : 0 < ∑ i ∈ (Finset.range h).filter (fun i => i.testBit k), (ρ.entry i i).re) :
    (∑ i ∈ (Finset.range h).filter (fun i => i.testBit k),
      ((postselectDensity ρ k true).entry i i).re) = 1 := by
  have hT : (∑ i ∈ (Finset.range ρ.height).filter (fun i => i.testBit k = true),
      ρ.entry i i) =
      ((∑ i ∈ (Finset.range h).filter (fun i => i.testBit k), (ρ.entry i i).re : ℝ) : ℂ) := by
    rw [hdh]
    apply Complex.ext
    · rw [Complex.re_sum, Complex.ofReal_re]
    · rw [Complex.im_sum, Complex.ofReal_im]
      exact Finset.sum_eq_zero fun i _ => him i
  have habs : Complex.abs (∑ i ∈ (Finset.range ρ.height).filter
      (fun i => i.testBit k = true), ρ.entry i i) =
      ∑ i ∈ (Finset.range h).filter (fun i => i.testBit k), (ρ.entry i i).re := by
    rw [hT, Complex.abs_ofReal, abs_of_pos hq]
  have hterm : ∀ i ∈ (Finset.range h).filter (fun i => i.testBit k),
      ((postselectDensity ρ k true).entry i i).re =
        (ρ.entry i i).re /
          ∑ j ∈ (Finset.range h).filter (fun j => j.testBit k), (ρ.entry j j).re := by
    intro i hi
    have hbit : i.testBit k = true := (Finset.mem_filter.mp hi).2
    rw [postselectDensity_entry ρ k true i i, if_pos ⟨hbit, hbit⟩, habs,
      Complex.div_ofReal_re]
  rw [Finset.sum_congr rfl hterm, ← Finset.sum_div, div_self hq.ne']

/-- C7: measuring the same qubit twice in succession (with in-range random
samples) returns the same Boolean both times, and the second call adds
exactly 0 to the misprediction score.  The well-formedness hypotheses (width
1, matching density height, real diagonal, and a positive predicted
probability for an observed `true` outcome) hold for every state reachable
through the simulator API. -/
theorem measureQubit_idempotent (qc : EveQuantumComputer) (k : ℕ) (s1 s2 : ℝ)
    (hw : qc.actualHiddenState.width = 1)
    (hdh : qc.inferredStateDensity.height = qc.actualHiddenState.height)
    (hs1 : 0 ≤ s1) (hs2a : 0 ≤ s2) (hs2b : s2 < 1)
    (him : ∀ i, (qc.inferredStateDensity.entry i i).im = 0)
    (hq : (measureQubit qc k s1).1 = true → 0 < predictedOnNess qc k) :
    (measureQubit (measureQubit qc k s1).2 k s2).1 = (measureQubit qc k s1).1 ∧
      (measureQubit (measureQubit qc k s1).2 k s2).2.expectedIgnoranceErrors =
        (measureQubit qc k s1).2.expectedIgnoranceErrors := by
  have hq1h : (measureQubit qc k s1).2.actualHiddenState.height =
      qc.actualHiddenState.height := rfl
  have hch : ∀ b, (postselectCol qc.actualHiddenState k b).height =
      qc.actualHiddenState.height := fun _ => rfl
  cases hb1 : measureResult qc k s1 with
  | false =>
    have hstate : (measureQubit qc k s1).2.actualHiddenState =
        postselectCol qc.actualHiddenState k false := by
      rw [← hb1]
      rfl
    have hdstate : (measureQubit qc k s1).2.inferredStateDensity =
        postselectDensity qc.inferredStateDensity k false := by
      rw [← hb1]
      rfl
    have hp2 : actualOnNess (measureQubit qc k s1).2 k = 0 := by
      rw [actualOnNess_eq_filter, hstate, hch false]
      exact onNessCol_postselect_false qc.actualHiddenState k hw
    have hb2 : measureResult (measureQubit qc k s1).2 k s2 = false := by
      rw [measureResult, hp2, if_neg (not_lt.mpr hs2a)]
    have hq2 : predictedOnNess (measureQubit qc k s1).2 k = 0 := by
      rw [predictedOnNess_eq_filter, hq1h, hdstate]
      exact diagRe_postselect_false qc.inferredStateDensity k
        qc.actualHiddenState.height
    constructor
    · show measureResult (measureQubit qc k s1).2 k s2 = measureResult qc k s1
      rw [hb2, hb1]
    · show (measureQubit qc k s1).2.expectedIgnoranceErrors +
        |predictedOnNess (measureQubit qc k s1).2 k -
          actualOnNess (measureQubit qc k s1).2 k| =
        (measureQubit qc k s1).2.expectedIgnoranceErrors
      rw [hq2, hp2]
      simp
  | true =>
    have hstate : (measureQubit qc k s1).2.actualHiddenState =
        postselectCol qc.actualHiddenState k true := by
      rw [← hb1]
      rfl
    have hdstate : (measureQubit qc k s1).2.inferredStateDensity =
        postselectDensity qc.inferredStateDensity k true := by
      rw [← hb1]
      rfl
    have hplt : s1 < actualOnNess qc k := (measureResult_iff qc k s1).mp hb1
    have hp1pos : 0 < ∑ i ∈ (Finset.range qc.actualHiddenState.height).filter
        (fun i => i.testBit k), Complex.normSq (qc.actualHiddenState.entry i 0) := by
      rw [← actualOnNess_eq_filter]
      exact lt_of_le_of_lt hs1 hplt
    have hp2 : actualOnNess (measureQubit qc k s1).2 k = 1 := by
      rw [actualOnNess_eq_filter, hstate, hch true]
      exact onNessCol_postselect_true qc.actualHiddenState k hw hp1pos
    have hb2 : measureResult (measureQubit qc k s1).2 k s2 = true := by
      rw [measureResult, hp2, if_pos hs2b]
    have hq1pos : 0 < ∑ i ∈ (Finset.range qc.actualHiddenState.height).filter
        (fun i => i.testBit k), (qc.inferredStateDensity.entry i i).re := by
      rw [← predictedOnNess_eq_filter]
      exact hq hb1
    have hq2 : predictedOnNess (measureQubit qc k s1).2 k = 1 := by
      rw [predictedOnNess_eq_filter, hq1h, hdstate]
      exact diagRe_postselect_true qc.inferredStateDensity k
        qc.actualHiddenState.height hdh him hq1pos
    constructor
    · show measureResult (measureQubit qc k s1).2 k s2 = measureResult qc k s1
      rw [hb2, hb1]
    · show (measureQubit qc k s1).2.expectedIgnoranceErrors +
        |predictedOnNess (measureQubit qc k s1).2 k -
          actualOnNess (measureQubit qc k s1).2 k| =
        (measureQubit qc k s1).2.expectedIgnoranceErrors
      rw [hq2, hp2]
      simp

/-- Witness for C7 at the concrete simulator `wQC2` (true state `[0,1]`,
maximally mixed density), qubit 0, samples 0 and 1/2. -/
theorem measureQubit_idempotent_witness :
    (0 : ℝ) ≤ 0 ∧ (0 : ℝ) ≤ 1 / 2 ∧ (1 / 2 : ℝ) < 1 ∧
      ((measureQubit (measureQubit wQC2 0 0).2 0 (1 / 2)).1 =
          (measureQubit wQC2 0 0).1 ∧
        (measureQubit (measureQubit wQC2 0 0).2 0 (1 / 2)).2.expectedIgnoranceErrors =
          (measureQubit wQC2 0 0).2.expectedIgnoranceErrors) := by
  have him : ∀ i, ((wQC2.inferredStateDensity.entry i i).im) = 0 := by
    intro i
    simp [wQC2, wDenHalf]
  have hq : (measureQubit wQC2 0 0).1 = true → 0 < predictedOnNess wQC2 0 := by
    intro _
    rw [predictedOnNess]
    have : wQC2.actualHiddenState.height = 2 := rfl
    rw [this, Finset.sum_range_succ, Finset.sum_range_succ, Finset.sum_range_zero]
    norm_num [wQC2, wDenHalf, wCol01]
  exact ⟨le_refl 0, by norm_num, by norm_num,
    measureQubit_idempotent wQC2 0 0 (1 / 2) rfl rfl (le_refl 0) (by norm_num)
      (by norm_num) him hq⟩

/-- The concrete pure density matrix `|0⟩⟨0|`. -/
def wDen00 : JsMat := ⟨2, 2, fun r c => if r = 0 ∧ c = 0 then 1 else 0⟩

/-- C8 counterexample: post-selecting the state `[1,0]` (qubit 0 certainly
off) onto the zero-mass outcome `true` makes `postselectCol` divide by a
zero norm, and likewise `postselectDensity` on `|0⟩⟨0|` divides by a zero
trace — the renormalization `m.times(1/…)` has no zero guard. -/
theorem postselect_divides_by_zero :
    absCol (maskedCol wVCol 0 true) = 0 ∧
      Complex.abs (trace (maskedDensity wDen00 0 true)) = 0 := by
  constructor
  · rw [absCol_eq_sqrt_colMass (maskedCol wVCol 0 true) rfl, colMass_maskedCol]
    have hh : wVCol.height = 2 := rfl
    rw [hh, Finset.sum_filter, Finset.sum_range_succ, Finset.sum_range_succ,
      Finset.sum_range_zero]
    norm_num [wVCol]
  · rw [trace_maskedDensity]
    have hh : wDen00.height = 2 := rfl
    rw [hh, Finset.sum_filter, Finset.sum_range_succ, Finset.sum_range_succ,
      Finset.sum_range_zero]
    norm_num [wDen00]

/-- C8 amended: the renormalization inside `postselectCol` and
`postselectDensity` divides unconditionally (no zero guard); its divisor —
the masked norm resp. the masked trace's magnitude — is zero exactly when
the selected outcome carries zero mass. -/
theorem postselect_divisor_zero_iff (col ρ : JsMat) (k : ℕ) (b : Bool)
    (hw : col.width = 1) :
    (absCol (maskedCol col k b) = 0 ↔
      (∑ i ∈ (Finset.range col.height).filter (fun i => i.testBit k = b),
        Complex.normSq (col.entry i 0)) = 0) ∧
    (Complex.abs (trace (maskedDensity ρ k b)) = 0 ↔
      (∑ i ∈ (Finset.range ρ.height).filter (fun i => i.testBit k = b),
        ρ.entry i i) = 0) := by
  constructor
  · rw [absCol_eq_sqrt_colMass (maskedCol col k b) hw, colMass_maskedCol]
    exact Real.sqrt_eq_zero (Finset.sum_nonneg fun _ _ => Complex.normSq_nonneg _)
  · rw [trace_maskedDensity]
    exact map_eq_zero Complex.abs

/-- Witness for the amended C8 at the concrete zero-mass inputs. -/
theorem postselect_divisor_zero_iff_witness :
    wVCol.width = 1 ∧
      ((absCol (maskedCol wVCol 0 true) = 0 ↔
        (∑ i ∈ (Finset.range wVCol.height).filter (fun i => i.testBit 0 = true),
          Complex.normSq (wVCol.entry i 0)) = 0) ∧
      (Complex.abs (trace (maskedDensity wDen00 0 true)) = 0 ↔
        (∑ i ∈ (Finset.range wDen00.height).filter (fun i => i.testBit 0 = true),
          wDen00.entry i i) = 0)) :=
  ⟨rfl, postselect_divisor_zero_iff wVCol wDen00 0 true rfl⟩

/-- C10: measuring a qubit index `k` with `n ≤ k < 31` on a `2^n`-dimensional
normalized simulator state is not rejected: it returns `false`, adds 0 to
the misprediction score, increments the operation count by 1, and leaves all
in-range entries of both representations unchanged (no entry is masked and
both renormalizations divide by 1). -/
theorem measureQubit_out_of_range (qc : EveQuantumComputer) (k n : ℕ) (sample : ℝ)
    (hd : qc.actualHiddenState.height = 2 ^ n)
    (hρh : qc.inferredStateDensity.height = 2 ^ n)
    (hw : qc.actualHiddenState.width = 1)
    (hk : n ≤ k) (hk31 : k < 31) (hs : 0 ≤ sample)
    (hnorm : absCol qc.actualHiddenState = 1)
    (htr : Complex.abs (trace qc.inferredStateDensity) = 1) :
    (measureQubit qc k sample).1 = false ∧
      (measureQubit qc k sample).2.expectedIgnoranceErrors =
        qc.expectedIgnoranceErrors ∧
      (measureQubit qc k sample).2.operationCount = qc.operationCount + 1 ∧
      (∀ i < 2 ^ n, (measureQubit qc k sample).2.actualHiddenState.entry i 0 =
        qc.actualHiddenState.entry i 0) ∧
      (∀ r < 2 ^ n, ∀ c < 2 ^ n,
        (measureQubit qc k sample).2.inferredStateDensity.entry r c =
          qc.inferredStateDensity.entry r c) := by
  have hbit : ∀ i, i < 2 ^ n → i.testBit k = false := fun i hi =>
    Nat.testBit_lt_two_pow
      (lt_of_lt_of_le hi (Nat.pow_le_pow_right (by norm_num) hk))
  have hcond : ∀ i, i < 2 ^ n → ¬ (i &&& (1 <<< k) ≠ 0) := by
    intro i hi hne
    have ht := (and_shift_ne_zero_iff i k).mp hne
    rw [hbit i hi] at ht
    exact Bool.false_ne_true ht
  have hp : actualOnNess qc k = 0 := by
    rw [actualOnNess]
    refine Finset.sum_eq_zero fun i hi => ?_
    rw [hd] at hi
    rw [if_neg (hcond i (Finset.mem_range.mp hi))]
  have hq : predictedOnNess qc k = 0 := by
    rw [predictedOnNess]
    refine Finset.sum_eq_zero fun i hi => ?_
    rw [hd] at hi
    rw [if_neg (hcond i (Finset.mem_range.mp hi))]
  have hres : measureResult qc k sample = false := by
    rw [measureResult, hp, if_neg (not_lt.mpr hs)]
  have hfilterv : (Finset.range qc.actualHiddenState.height).filter
      (fun j => j.testBit k = false) = Finset.range qc.actualHiddenState.height := by
    refine Finset.filter_true_of_mem fun j hj => ?_
    rw [hd] at hj
    exact hbit j (Finset.mem_range.mp hj)
  have hfilterρ : (Finset.range qc.inferredStateDensity.height).filter
      (fun j => j.testBit k = false) = Finset.range qc.inferredStateDensity.height := by
    refine Finset.filter_true_of_mem fun j hj => ?_
    rw [hρh] at hj
    exact hbit j (Finset.mem_range.mp hj)
  have hmass : (∑ j ∈ (Finset.range qc.actualHiddenState.height).filter
      (fun j => j.testBit k = false), Complex.normSq (qc.actualHiddenState.entry j 0)) = 1 := by
    rw [hfilterv]
    have := hnorm
    rw [absCol_eq_sqrt_colMass _ hw] at this
    exact Real.sqrt_eq_one.mp this
  have htrace : Complex.abs (∑ i ∈ (Finset.range qc.inferredStateDensity.height).filter
      (fun i => i.testBit k = false), qc.inferredStateDensity.entry i i) = 1 := by
    rw [hfilterρ]
    exact htr
  refine ⟨hres, ?_, rfl, ?_, ?_⟩
  · show qc.expectedIgnoranceErrors + |predictedOnNess qc k - actualOnNess qc k| =
      qc.expectedIgnoranceErrors
    rw [hp, hq]
    simp
  · intro i hi
    show (postselectCol qc.actualHiddenState k (measureResult qc k sample)).entry i 0 = _
    rw [hres, postselectCol_entry qc.actualHiddenState k false hw i, hmass,
      if_pos (hbit i hi)]
    norm_num
  · intro r hr c hc
    show (postselectDensity qc.inferredStateDensity k
      (measureResult qc k sample)).entry r c = _
    rw [hres, postselectDensity_entry qc.inferredStateDensity k false r c, htrace,
      if_pos ⟨hbit r hr, hbit c hc⟩]
    norm_num

/-- Witness for C10 at the concrete simulator `wQC1` (dimension `2^0`),
qubit index 5, sample 1/2. -/
theorem measureQubit_out_of_range_witness :
    (0 : ℕ) ≤ 5 ∧ (5 : ℕ) < 31 ∧ (0 : ℝ) ≤ 1 / 2 ∧
      absCol wQC1.actualHiddenState = 1 ∧
      Complex.abs (trace wQC1.inferredStateDensity) = 1 ∧
      ((measureQubit wQC1 5 (1 / 2)).1 = false ∧
        (measureQubit wQC1 5 (1 / 2)).2.expectedIgnoranceErrors =
          wQC1.expectedIgnoranceErrors ∧
        (measureQubit wQC1 5 (1 / 2)).2.operationCount = wQC1.operationCount + 1 ∧
        (∀ i < 2 ^ 0, (measureQubit wQC1 5 (1 / 2)).2.actualHiddenState.entry i 0 =
          wQC1.actualHiddenState.entry i 0) ∧
        (∀ r < 2 ^ 0, ∀ c < 2 ^ 0,
          (measureQubit wQC1 5 (1 / 2)).2.inferredStateDensity.entry r c =
            wQC1.inferredStateDensity.entry r c)) := by
  have hnorm : absCol wQC1.actualHiddenState = 1 := by
    rw [absCol_eq_sqrt_colMass _ rfl]
    simp [colMass, wQC1, wCol1]
  have htr : Complex.abs (trace wQC1.inferredStateDensity) = 1 := by
    simp [trace, wQC1, wCol1]
  exact ⟨by norm_num, by norm_num, by norm_num, hnorm, htr,
    measureQubit_out_of_range wQC1 5 0 (1 / 2) rfl rfl rfl (by norm_num) (by norm_num)
      (by norm_num) hnorm htr⟩

/-- The concrete pure density matrix `|+⟩⟨+|` (all entries `1/2`). -/
def wDenPlus : JsMat := ⟨2, 2, fun _ _ => (((1 / 2 : ℝ)) : ℂ)⟩

theorem blochVec_wDen00 : blochVec wDen00 = (0, 0, 1) := by
  simp only [blochVec, trace, times, pauliX, pauliY, pauliZ, wDen00]
  norm_num [Finset.sum_range_succ, Complex.ext_iff]

theorem blochVec_wDenPlus : blochVec wDenPlus = (1, 0, 0) := by
  simp only [blochVec, trace, times, pauliX, pauliY, pauliZ, wDenPlus]
  norm_num [Finset.sum_range_succ, Complex.ext_iff]

/-- C9 counterexample: at `|0⟩⟨0|` and `|+⟩⟨+|` the Bloch distance over 2 is
`√2/2`, an irrational number, while `qubitTraceDistance` returns its
`.toFixed(4)` rounding — the two differ. -/
theorem qubitTraceDistance_not_exact :
    qubitTraceDistance wDen00 wDenPlus ≠
      Real.sqrt (((blochVec wDenPlus).1 - (blochVec wDen00).1) ^ 2 +
          ((blochVec wDenPlus).2.1 - (blochVec wDen00).2.1) ^ 2 +
          ((blochVec wDenPlus).2.2 - (blochVec wDen00).2.2) ^ 2) / 2 := by
  rw [qubitTraceDistance, blochVec_wDen00, blochVec_wDenPlus]
  intro heq
  simp only [toFixed4] at heq
  rw [show ((1 : ℝ) - 0) ^ 2 + (0 - 0) ^ 2 + (0 - 1) ^ 2 = 2 by norm_num] at heq
  refine irrational_sqrt_two
    ⟨((round (Real.sqrt 2 / 2 * 10000) : ℤ) : ℚ) / 5000, ?_⟩
  push_cast
  rw [div_eq_iff (by norm_num : (10000 : ℝ) ≠ 0)] at heq
  rw [div_eq_iff (by norm_num : (5000 : ℝ) ≠ 0)]
  linarith [heq]

/-- C9 amended: `qubitTraceDistance` is half the Euclidean distance between
the two Bloch vectors rounded to four decimal places (`toFixed(4)`), hence
within `1/20000` of the exact value. -/
theorem qubitTraceDistance_approx (d1 d2 : JsMat) :
    qubitTraceDistance d1 d2 =
      toFixed4
        (Real.sqrt (((blochVec d2).1 - (blochVec d1).1) ^ 2 +
            ((blochVec d2).2.1 - (blochVec d1).2.1) ^ 2 +
            ((blochVec d2).2.2 - (blochVec d1).2.2) ^ 2) / 2) ∧
    |qubitTraceDistance d1 d2 -
        Real.sqrt (((blochVec d2).1 - (blochVec d1).1) ^ 2 +
            ((blochVec d2).2.1 - (blochVec d1).2.1) ^ 2 +
            ((blochVec d2).2.2 - (blochVec d1).2.2) ^ 2) / 2| ≤ 1 / 20000 := by
  refine ⟨rfl, ?_⟩
  rw [qubitTraceDistance, toFixed4]
  set x := Real.sqrt (((blochVec d2).1 - (blochVec d1).1) ^ 2 +
      ((blochVec d2).2.1 - (blochVec d1).2.1) ^ 2 +
      ((blochVec d2).2.2 - (blochVec d1).2.2) ^ 2) / 2 with hx
  have hr := abs_sub_round (x * 10000)
  rw [show ((round (x * 10000) : ℤ) : ℝ) / 10000 - x =
      (((round (x * 10000) : ℤ) : ℝ) - x * 10000) / 10000 by ring]
  rw [abs_div]
  rw [show |(10000 : ℝ)| = 10000 by norm_num]
  rw [div_le_iff₀ (by norm_num : (0 : ℝ) < 10000)]
  calc |((round (x * 10000) : ℤ) : ℝ) - x * 10000| = |x * 10000 - ((round (x * 10000) : ℤ) : ℝ)| :=
    abs_sub_comm _ _
  _ ≤ 1 / 2 := hr
  _ ≤ 1 / 20000 * 10000 := by norm_num

end

end EveSim
